import Mathlib

/-!
Verification of the `holder_rewards` pallet
(`src/blockchain/pallets/holder_rewards/src/lib.rs`).

The pallet keeps two storage items:
  * `CoinBlockShares : StorageMap BlockNumber → u32` (the weighting schedule),
  * `BlockBalances : StorageDoubleMap (BlockNumber, AccountId) → Balance`
    with `ValueQuery` (missing entries read as zero).

`set_hold_shares` (root only) clears `CoinBlockShares` and installs the pairs
of the supplied `BTreeMap`.  The `on_finalize(B)` hook first records, for every
stored `(block_delta, _)` with `(B + block_delta) % MintEveryNBlocks == 0`, the
free balance of every account under key `(B, account)`; then, when `B` itself
is a minting block, it collects the schedule into a `BTreeMap` (ascending key
order), computes for every account a running-minimum weighted score, sums the
scores, withdraws the reward pool with `TokenDistribution::take_from`, and
credits `amount * score / total` to each account with `deposit_creating`.

Block numbers, account ids and balances are modelled as `Nat`; storage maps as
association lists; the Rust division panic (`x / 0`) as `Option.none`.
-/

namespace HolderRewards

/-- `Balance::max_value()` for a `u128` balance type, used to seed the running
minimum (`BalanceOf::<T>::max_value()` at line 119 of the source). -/
def balanceMax : Nat := 2 ^ 128 - 1

/-- Lookup in an association list keyed by a single `Nat`
(models `StorageMap` access for `CoinBlockShares`). -/
def lookupKV : List (Nat × Nat) → Nat → Option Nat
  | [], _ => none
  | (k, v) :: rest, k0 => if k = k0 then some v else lookupKV rest k0

/-- Insert-or-replace in an association list keyed by a single `Nat`
(models `StorageMap::insert`). -/
def insertKV : List (Nat × Nat) → Nat → Nat → List (Nat × Nat)
  | [], k0, v0 => [(k0, v0)]
  | (k, v) :: rest, k0, v0 =>
    if k = k0 then (k0, v0) :: rest else (k, v) :: insertKV rest k0 v0

/-- Lookup in the balance-history double map `BlockBalances`
keyed by `(block, account)`. -/
def lookupBB : List ((Nat × Nat) × Nat) → Nat → Nat → Option Nat
  | [], _, _ => none
  | (k, v) :: rest, b, a => if k = (b, a) then some v else lookupBB rest b a

/-- Insert-or-replace in `BlockBalances` (models `StorageDoubleMap::insert`). -/
def insertBB : List ((Nat × Nat) × Nat) → Nat → Nat → Nat → List ((Nat × Nat) × Nat)
  | [], b, a, v0 => [((b, a), v0)]
  | (k, v) :: rest, b, a, v0 =>
    if k = (b, a) then ((b, a), v0) :: rest else (k, v) :: insertBB rest b a v0

/-- `BlockBalances::<T>::get`: the double map is declared with `ValueQuery`,
so a missing entry reads as the default balance, zero. -/
def getBB (hist : List ((Nat × Nat) × Nat)) (b a : Nat) : Nat :=
  (lookupBB hist b a).getD 0

/-- Key order on `(offset, shares)` pairs, as used by the `BTreeMap` the
distributor collects the schedule into. -/
def keyLE (p q : Nat × Nat) : Prop := p.1 ≤ q.1

instance : DecidableRel keyLE := fun p q => Nat.decLe p.1 q.1

instance : IsTotal (Nat × Nat) keyLE := ⟨fun p q => Nat.le_total p.1 q.1⟩

instance : IsTrans (Nat × Nat) keyLE := ⟨fun _ _ _ h h2 => Nat.le_trans h h2⟩

/-- `CoinBlockShares::<T>::iter().collect::<BTreeMap<_, _>>()` (line 116):
the stored pairs re-ordered by ascending offset. -/
def sortByKey (l : List (Nat × Nat)) : List (Nat × Nat) :=
  l.insertionSort keyLE

/-- The `filter_map` closure of lines 120–129: walk the schedule in the given
order carrying the mutable `effective_balance`; a pair whose offset exceeds the
block number makes `checked_sub` return `None` and is skipped (leaving
`effective_balance` untouched); an eligible pair lowers `effective_balance` to
`min(BlockBalances[(B - delta, a)], effective_balance)` and yields
`effective_balance * shares`. -/
def contribs (hist : List ((Nat × Nat) × Nat)) (B a : Nat) :
    List (Nat × Nat) → Nat → List Nat
  | [], _ => []
  | (delta, sh) :: rest, eff =>
    if delta ≤ B then
      min (getBB hist (B - delta) a) eff * sh ::
        contribs hist B a rest (min (getBB hist (B - delta) a) eff)
    else
      contribs hist B a rest eff

/-- The per-account score of lines 118–131: the contributions of the schedule
walk, summed, starting from `effective_balance = Balance::max_value()`. -/
def accountScore (hist : List ((Nat × Nat) × Nat)) (B : Nat)
    (sched : List (Nat × Nat)) (a : Nat) : Nat :=
  (contribs hist B a sched balanceMax).sum

/-- On-chain storage of the pallet. -/
structure Storage where
  coinBlockShares : List (Nat × Nat)
  blockBalances : List ((Nat × Nat) × Nat)
  deriving DecidableEq

/-- The pallet collaborators fixed during one `on_finalize` call: the
configuration constant `MintEveryNBlocks`, the account registry
(`frame_system::pallet::Account` iteration), the ledger balances
(`T::Currency::free_balance`) and the holder-rewards pool balance held by
`T::TokenDistribution`. -/
structure Externals where
  mintEveryNBlocks : Nat
  accounts : List Nat
  freeBalance : Nat → Nat
  pool : Nat

/-- `is_minting_block` (lines 98–99): `n % T::MintEveryNBlocks::get() == 0`. -/
def isMintingBlock (m n : Nat) : Bool := n % m == 0

/-- Lines 101–110: for every stored `(block_delta, _)` such that
`block_number + block_delta` is a minting block, write the current free
balance of every account into `BlockBalances` under key `(block_number, id)`. -/
def recordBalances (ext : Externals) (st : Storage) (B : Nat) :
    List ((Nat × Nat) × Nat) :=
  st.coinBlockShares.foldl
    (fun hist p =>
      if isMintingBlock ext.mintEveryNBlocks (B + p.1) then
        ext.accounts.foldl (fun h a => insertBB h B a (ext.freeBalance a)) hist
      else hist)
    st.blockBalances

/-- Lines 117–133: the `account_shares` map, one `(id, score)` pair per
registry account, scores computed against the ascending-ordered schedule. -/
def distScores (ext : Externals) (st : Storage) (B : Nat) : List (Nat × Nat) :=
  ext.accounts.map fun a =>
    (a, accountScore (recordBalances ext st B) B (sortByKey st.coinBlockShares) a)

/-- Line 135: `total_shares`, the sum of all account scores. -/
def totalScore (ext : Externals) (st : Storage) (B : Nat) : Nat :=
  ((distScores ext st B).map Prod.snd).sum

/-- Reduction modulo `2 ^ 128`: what an unchecked `u128` multiplication leaves
behind in a release build. -/
def wrap128 (n : Nat) : Nat := n % 2 ^ 128

/-- Lines 138–141: for each account, `to_this = amount * shares / total_shares`
followed by `deposit_creating`, in `u128` arithmetic: the unchecked
multiplication wraps modulo `2 ^ 128`, and the division panics when
`total_shares == 0`, which an iteration reaches whenever the account list is
non-empty; the panic is modelled as `none`. -/
def distributeLoop (amount total : Nat) : List (Nat × Nat) → Option (List (Nat × Nat))
  | [] => some []
  | (a, s) :: rest =>
    if total = 0 then none
    else
      match distributeLoop amount total rest with
      | none => none
      | some ds => some ((a, wrap128 (amount * s) / total) :: ds)

/-- Observable outcome of one `on_finalize` call: the balance-history store
after the call, whether `TokenDistribution::take_from(HOLDER_REWARDS_PURPOSE)`
was invoked, the pool balance it leaves behind, and the
`deposit_creating` calls made. -/
structure FinalizeResult where
  blockBalances : List ((Nat × Nat) × Nat)
  poolWithdrawn : Bool
  poolRemaining : Nat
  deposits : List (Nat × Nat)
  deriving DecidableEq

/-- `on_finalize` (lines 97–142).  The recorder loop always runs; the
distributor part runs only at minting blocks, where it unconditionally
withdraws the whole pool (line 137, zeroing it) and then runs the deposit
loop, whose division faults (`none`) when `total_shares == 0` and at least one
account exists. -/
def onFinalize (ext : Externals) (st : Storage) (B : Nat) : Option FinalizeResult :=
  if isMintingBlock ext.mintEveryNBlocks B then
    match distributeLoop ext.pool (totalScore ext st B) (distScores ext st B) with
    | none => none
    | some deps =>
      some { blockBalances := recordBalances ext st B, poolWithdrawn := true,
             poolRemaining := 0, deposits := deps }
  else
    some { blockBalances := recordBalances ext st B, poolWithdrawn := false,
           poolRemaining := ext.pool, deposits := [] }

/-- Dispatch origins relevant to `set_hold_shares`. -/
inductive Origin where
  | root
  | signed (who : Nat)
  | nobody
  deriving DecidableEq

/-- `set_hold_shares` (lines 77–89): `ensure_root` rejects every non-root
origin before any storage access; on success `CoinBlockShares::remove_all()`
runs and each pair of the supplied map is inserted. -/
def setHoldShares (origin : Origin) (m : List (Nat × Nat)) (st : Storage) :
    Storage × Except Unit Unit :=
  match origin with
  | Origin.root =>
    ({ st with coinBlockShares := m.foldl (fun acc p => insertKV acc p.1 p.2) [] },
     Except.ok ())
  | _ => (st, Except.error ())

/-! ## Spec-side formulation of the score (for the refinement claim C1) -/

/-- The running minimum described by the spec: fold `min` over the recorded
balances at the given offsets, starting from the given seed. -/
def specRunMin (hist : List ((Nat × Nat) × Nat)) (B a seed : Nat)
    (deltas : List Nat) : Nat :=
  deltas.foldl (fun m d => min m (getBB hist (B - d) a)) seed

/-- Spec-side score over a list of eligible pairs: the `i`-th pair contributes
the running minimum over the balances of the first `i + 1` offsets (seeded
with `seed`) times its shares. -/
def specScoreFrom (hist : List ((Nat × Nat) × Nat)) (B a seed : Nat)
    (el : List (Nat × Nat)) : Nat :=
  ((List.range el.length).map fun i =>
    specRunMin hist B a seed ((el.take (i + 1)).map Prod.fst) *
      (el.getD i (0, 0)).2).sum

/-- Spec-side account score, following the words of the specification: pairs
with offset greater than the block number are skipped entirely, and each
remaining pair contributes the running minimum down to it (seeded with
`Balance::MAX`) times its shares. -/
def specScore (hist : List ((Nat × Nat) × Nat)) (B : Nat)
    (sched : List (Nat × Nat)) (a : Nat) : Nat :=
  specScoreFrom hist B a balanceMax (sched.filter fun p => decide (p.1 ≤ B))

theorem specScoreFrom_cons (hist : List ((Nat × Nat) × Nat)) (B a seed d s : Nat)
    (el : List (Nat × Nat)) :
    specScoreFrom hist B a seed ((d, s) :: el) =
      min seed (getBB hist (B - d) a) * s +
        specScoreFrom hist B a (min seed (getBB hist (B - d) a)) el := by
  unfold specScoreFrom
  rw [List.length_cons, List.range_succ_eq_map, List.map_cons, List.sum_cons,
    List.map_map]
  congr 1

theorem contribs_sum_eq (hist : List ((Nat × Nat) × Nat)) (B a : Nat)
    (sched : List (Nat × Nat)) : ∀ seed : Nat,
    (contribs hist B a sched seed).sum =
      specScoreFrom hist B a seed (sched.filter fun p => decide (p.1 ≤ B)) := by
  induction sched with
  | nil => intro seed; simp [contribs, specScoreFrom]
  | cons p rest ih =>
    intro seed
    obtain ⟨d, s⟩ := p
    by_cases hd : d ≤ B
    · rw [show contribs hist B a ((d, s) :: rest) seed =
          min (getBB hist (B - d) a) seed * s ::
            contribs hist B a rest (min (getBB hist (B - d) a) seed) by
          simp [contribs, hd],
        List.sum_cons, ih,
        List.filter_cons_of_pos (by simpa using hd), specScoreFrom_cons,
        Nat.min_comm seed (getBB hist (B - d) a)]
    · rw [show contribs hist B a ((d, s) :: rest) seed =
          contribs hist B a rest seed by simp [contribs, hd],
        ih, List.filter_cons_of_neg (by simpa using hd)]

theorem sortByKey_keys_sorted_lt (l : List (Nat × Nat))
    (hnd : (l.map Prod.fst).Nodup) :
    ((sortByKey l).map Prod.fst).Sorted (· < ·) := by
  have hle : ((sortByKey l).map Prod.fst).Sorted (· ≤ ·) :=
    List.pairwise_map.mpr (List.sorted_insertionSort keyLE l)
  have hperm : List.Perm ((sortByKey l).map Prod.fst) (l.map Prod.fst) :=
    (List.perm_insertionSort keyLE l).map Prod.fst
  exact hle.lt_of_le (hperm.nodup_iff.mpr hnd)

/-- C1: at a minting block the distributor computes each registry account's
score by walking the schedule in strictly ascending offset order with a
running minimum seeded with `Balance::MAX`: each pair with offset `≤ B`
lowers the running minimum to the recorded balance at `B - offset` (absent
entries reading as zero) and contributes `running_min * shares`; pairs with
offset `> B` are skipped and leave the running minimum unchanged. -/
theorem score_running_min_ascending (ext : Externals) (st : Storage) (B a : Nat)
    (hmint : B % ext.mintEveryNBlocks = 0) (ha : a ∈ ext.accounts)
    (hnd : (st.coinBlockShares.map Prod.fst).Nodup) :
    ((sortByKey st.coinBlockShares).map Prod.fst).Sorted (· < ·) ∧
      accountScore (recordBalances ext st B) B (sortByKey st.coinBlockShares) a =
        specScore (recordBalances ext st B) B (sortByKey st.coinBlockShares) a :=
  ⟨sortByKey_keys_sorted_lt st.coinBlockShares hnd,
    contribs_sum_eq (recordBalances ext st B) B a (sortByKey st.coinBlockShares)
      balanceMax⟩

/-- Witness for C1 at a concrete schedule, history and block. -/
theorem score_running_min_ascending_witness :
    ((sortByKey [(3, 2), (1, 5)]).map Prod.fst).Sorted (· < ·) ∧
      accountScore
          (recordBalances ⟨5, [7], fun _ => 0, 0⟩
            ⟨[(3, 2), (1, 5)], [((9, 7), 4), ((7, 7), 9)]⟩ 10)
          10 (sortByKey [(3, 2), (1, 5)]) 7 =
        specScore
          (recordBalances ⟨5, [7], fun _ => 0, 0⟩
            ⟨[(3, 2), (1, 5)], [((9, 7), 4), ((7, 7), 9)]⟩ 10)
          10 (sortByKey [(3, 2), (1, 5)]) 7 :=
  score_running_min_ascending ⟨5, [7], fun _ => 0, 0⟩
    ⟨[(3, 2), (1, 5)], [((9, 7), 4), ((7, 7), 9)]⟩ 10 7 (by decide) (by decide)
    (by decide)

/-! ## Balance-history store lemmas and the recorder (C4) -/

theorem lookupBB_insertBB_self (h : List ((Nat × Nat) × Nat)) (b a v : Nat) :
    lookupBB (insertBB h b a v) b a = some v := by
  induction h with
  | nil => simp [insertBB, lookupBB]
  | cons p rest ih =>
    obtain ⟨k, w⟩ := p
    by_cases hk : k = (b, a)
    · simp [insertBB, hk, lookupBB]
    · simp only [insertBB, if_neg hk, lookupBB, if_neg hk]
      exact ih

theorem lookupBB_insertBB_ne (h : List ((Nat × Nat) × Nat)) (b a v b2 a2 : Nat)
    (hne : (b, a) ≠ (b2, a2)) :
    lookupBB (insertBB h b a v) b2 a2 = lookupBB h b2 a2 := by
  induction h with
  | nil => simp [insertBB, lookupBB, hne]
  | cons p rest ih =>
    obtain ⟨k, w⟩ := p
    by_cases hk : k = (b, a)
    · subst hk
      simp [insertBB, lookupBB, hne]
    · simp only [insertBB, if_neg hk, lookupBB]
      split
      · rfl
      · exact ih

/-- After the inner account loop of the recorder (lines 106–109), every
account that is in the loop list — or already carried the recorded value —
reads back its free balance at key `(B, account)`. -/
theorem lookupBB_writeAll (B : Nat) (f : Nat → Nat) :
    ∀ (accounts : List Nat) (h : List ((Nat × Nat) × Nat)) (a : Nat),
      (a ∈ accounts ∨ lookupBB h B a = some (f a)) →
      lookupBB (accounts.foldl (fun h2 x => insertBB h2 B x (f x)) h) B a =
        some (f a) := by
  intro accounts
  induction accounts with
  | nil =>
    intro h a ha
    rcases ha with h1 | h1
    · cases h1
    · simpa using h1
  | cons x rest ih =>
    intro h a ha
    simp only [List.foldl_cons]
    apply ih
    by_cases hax : a = x
    · subst hax
      exact Or.inr (lookupBB_insertBB_self h B a (f a))
    · rcases ha with h1 | h1
      · rcases List.mem_cons.mp h1 with h2 | h2
        · exact absurd h2 hax
        · exact Or.inl h2
      · refine Or.inr ?_
        rw [lookupBB_insertBB_ne h B x (f x) B a ?_]
        · exact h1
        · simp only [ne_eq, Prod.mk.injEq, true_and]
          exact fun h3 => hax h3.symm

theorem recordBalances_qualifying_aux (ext : Externals) (B : Nat) :
    ∀ (l : List (Nat × Nat)) (h : List ((Nat × Nat) × Nat)) (a : Nat),
      a ∈ ext.accounts →
      ((∃ p ∈ l, isMintingBlock ext.mintEveryNBlocks (B + p.1) = true) ∨
        lookupBB h B a = some (ext.freeBalance a)) →
      lookupBB
        (l.foldl
          (fun hist p =>
            if isMintingBlock ext.mintEveryNBlocks (B + p.1) then
              ext.accounts.foldl (fun h2 x => insertBB h2 B x (ext.freeBalance x))
                hist
            else hist)
          h) B a = some (ext.freeBalance a) := by
  intro l
  induction l with
  | nil =>
    intro h a _ hq
    rcases hq with ⟨p, hp, _⟩ | h1
    · cases hp
    · simpa using h1
  | cons p rest ih =>
    intro h a ha hq
    simp only [List.foldl_cons]
    by_cases hqp : isMintingBlock ext.mintEveryNBlocks (B + p.1) = true
    · rw [if_pos hqp]
      exact ih _ a ha
        (Or.inr (lookupBB_writeAll B ext.freeBalance ext.accounts h a (Or.inl ha)))
    · rw [if_neg hqp]
      apply ih _ a ha
      rcases hq with ⟨q, hqmem, hqq⟩ | h1
      · rcases List.mem_cons.mp hqmem with h2 | h2
        · exact absurd (h2 ▸ hqq) hqp
        · exact Or.inl ⟨q, h2, hqq⟩
      · exact Or.inr h1

theorem recordBalances_none_aux (ext : Externals) (B : Nat) :
    ∀ (l : List (Nat × Nat)) (h : List ((Nat × Nat) × Nat)),
      (∀ p ∈ l, ¬ isMintingBlock ext.mintEveryNBlocks (B + p.1) = true) →
      l.foldl
        (fun hist p =>
          if isMintingBlock ext.mintEveryNBlocks (B + p.1) then
            ext.accounts.foldl (fun h2 x => insertBB h2 B x (ext.freeBalance x))
              hist
          else hist)
        h = h := by
  intro l
  induction l with
  | nil => intro h _; rfl
  | cons p rest ih =>
    intro h hnone
    simp only [List.foldl_cons]
    rw [if_neg (hnone p (List.mem_cons_self p rest))]
    exact ih h fun q hq => hnone q (List.mem_cons_of_mem p hq)

/-- C4: at block `B`, if some stored offset has `(B + offset) % MintInterval
= 0` then the recorder writes every registry account's current free balance
under key `(B, account)`; if no stored offset qualifies, the history store is
left exactly as it was (in particular nothing is written for block `B`). -/
theorem recorder_snapshots (ext : Externals) (st : Storage) (B : Nat) :
    ((∃ p ∈ st.coinBlockShares, (B + p.1) % ext.mintEveryNBlocks = 0) →
      ∀ a ∈ ext.accounts,
        lookupBB (recordBalances ext st B) B a = some (ext.freeBalance a)) ∧
      ((∀ p ∈ st.coinBlockShares, ¬ (B + p.1) % ext.mintEveryNBlocks = 0) →
        recordBalances ext st B = st.blockBalances) := by
  constructor
  · intro hq a ha
    apply recordBalances_qualifying_aux ext B st.coinBlockShares st.blockBalances a ha
    obtain ⟨p, hp, hmod⟩ := hq
    exact Or.inl ⟨p, hp, by simpa [isMintingBlock] using hmod⟩
  · intro hnone
    apply recordBalances_none_aux ext B st.coinBlockShares st.blockBalances
    intro p hp
    simpa [isMintingBlock] using hnone p hp

/-- Witness for C4: a qualifying offset makes the snapshot land in the store,
and with no qualifying offset the store is untouched. -/
theorem recorder_snapshots_witness :
    lookupBB
        (recordBalances ⟨5, [3], fun _ => 42, 0⟩ ⟨[(2, 9)], []⟩ 8) 8 3 = some 42 ∧
      recordBalances ⟨5, [3], fun _ => 42, 0⟩ ⟨[(1, 9)], [((0, 3), 7)]⟩ 8 =
        [((0, 3), 7)] :=
  ⟨(recorder_snapshots ⟨5, [3], fun _ => 42, 0⟩ ⟨[(2, 9)], []⟩ 8).1
      (by decide) 3 (by decide),
    (recorder_snapshots ⟨5, [3], fun _ => 42, 0⟩ ⟨[(1, 9)], [((0, 3), 7)]⟩ 8).2
      (by decide)⟩

/-! ## The distributor outside minting blocks (C7) -/

/-- C7: when `B` is not a minting block the hook stops after the recorder:
the pool is not withdrawn and no deposit is made. -/
theorem non_minting_distributor_noop (ext : Externals) (st : Storage) (B : Nat)
    (h : ¬ B % ext.mintEveryNBlocks = 0) :
    onFinalize ext st B =
      some { blockBalances := recordBalances ext st B, poolWithdrawn := false,
             poolRemaining := ext.pool, deposits := [] } := by
  unfold onFinalize
  rw [if_neg (by simp [isMintingBlock, h])]

/-- Witness for C7 at a concrete non-minting block. -/
theorem non_minting_distributor_noop_witness :
    onFinalize ⟨5, [1], fun _ => 2, 9⟩ ⟨[(1, 1)], []⟩ 3 =
      some { blockBalances := recordBalances ⟨5, [1], fun _ => 2, 9⟩ ⟨[(1, 1)], []⟩ 3,
             poolWithdrawn := false, poolRemaining := 9, deposits := [] } :=
  non_minting_distributor_noop ⟨5, [1], fun _ => 2, 9⟩ ⟨[(1, 1)], []⟩ 3 (by decide)

/-! ## `set_hold_shares` (C8, C9) -/

/-- C8: `ensure_root` rejects any non-root origin before the storage is
touched, so the call fails and `CoinBlockShares` is completely unchanged. -/
theorem set_hold_shares_unauthorized (o : Origin) (m : List (Nat × Nat))
    (st : Storage) (h : o ≠ Origin.root) :
    setHoldShares o m st = (st, Except.error ()) := by
  cases o with
  | root => exact absurd rfl h
  | signed w => rfl
  | nobody => rfl

/-- Witness for C8 with a signed (non-root) origin. -/
theorem set_hold_shares_unauthorized_witness :
    setHoldShares (Origin.signed 3) [(1, 2)] ⟨[(9, 9)], []⟩ =
      (⟨[(9, 9)], []⟩, Except.error ()) :=
  set_hold_shares_unauthorized (Origin.signed 3) [(1, 2)] ⟨[(9, 9)], []⟩
    (by decide)

theorem lookupKV_insertKV_self (l : List (Nat × Nat)) (k v : Nat) :
    lookupKV (insertKV l k v) k = some v := by
  induction l with
  | nil => simp [insertKV, lookupKV]
  | cons p rest ih =>
    obtain ⟨k0, v0⟩ := p
    by_cases hk : k0 = k
    · simp [insertKV, hk, lookupKV]
    · simp only [insertKV, if_neg hk, lookupKV, if_neg hk]
      exact ih

theorem lookupKV_insertKV_ne (l : List (Nat × Nat)) (k v k2 : Nat)
    (hne : k ≠ k2) :
    lookupKV (insertKV l k v) k2 = lookupKV l k2 := by
  induction l with
  | nil => simp [insertKV, lookupKV, hne]
  | cons p rest ih =>
    obtain ⟨k0, v0⟩ := p
    by_cases hk : k0 = k
    · subst hk
      simp [insertKV, lookupKV, hne]
    · simp only [insertKV, if_neg hk, lookupKV]
      split
      · rfl
      · exact ih

theorem lookupKV_foldl_not_mem (m : List (Nat × Nat)) :
    ∀ (init : List (Nat × Nat)) (k : Nat), k ∉ m.map Prod.fst →
      lookupKV (m.foldl (fun acc p => insertKV acc p.1 p.2) init) k =
        lookupKV init k := by
  induction m with
  | nil => intro init k _; rfl
  | cons p rest ih =>
    intro init k hk
    simp only [List.map_cons, List.mem_cons] at hk
    push_neg at hk
    simp only [List.foldl_cons]
    rw [ih _ k hk.2, lookupKV_insertKV_ne init p.1 p.2 k fun h => hk.1 h.symm]

theorem lookupKV_foldl_mem (m : List (Nat × Nat)) :
    ∀ (init : List (Nat × Nat)) (k v : Nat), (m.map Prod.fst).Nodup →
      lookupKV m k = some v →
      lookupKV (m.foldl (fun acc p => insertKV acc p.1 p.2) init) k = some v := by
  induction m with
  | nil => intro init k v _ hv; cases hv
  | cons p rest ih =>
    intro init k v hnd hv
    obtain ⟨k0, v0⟩ := p
    simp only [List.map_cons, List.nodup_cons] at hnd
    simp only [List.foldl_cons]
    by_cases hk : k0 = k
    · subst hk
      simp only [lookupKV, if_pos rfl] at hv
      rw [lookupKV_foldl_not_mem rest _ k0 hnd.1, lookupKV_insertKV_self]
      exact congrArg some (Option.some.inj hv)
    · simp only [lookupKV, if_neg hk] at hv
      exact ih _ k v hnd.2 hv

theorem lookupKV_none_iff (m : List (Nat × Nat)) (k : Nat) :
    lookupKV m k = none ↔ k ∉ m.map Prod.fst := by
  induction m with
  | nil => simp [lookupKV]
  | cons p rest ih =>
    obtain ⟨k0, v0⟩ := p
    simp only [lookupKV, List.map_cons, List.mem_cons]
    by_cases hk : k0 = k
    · subst hk
      simp
    · rw [if_neg hk, ih]
      constructor
      · intro h1 h2
        rcases h2 with h2 | h2
        · exact hk h2.symm
        · exact h1 h2
      · intro h1 h2
        exact h1 (Or.inr h2)

theorem lookupKV_of_mem (m : List (Nat × Nat)) (k v : Nat)
    (hnd : (m.map Prod.fst).Nodup) (hmem : (k, v) ∈ m) :
    lookupKV m k = some v := by
  induction m with
  | nil => cases hmem
  | cons p rest ih =>
    obtain ⟨k0, v0⟩ := p
    simp only [List.map_cons, List.nodup_cons] at hnd
    rcases List.mem_cons.mp hmem with h1 | h1
    · obtain ⟨rfl, rfl⟩ := Prod.mk.inj h1.symm
      simp [lookupKV]
    · have hk : k0 ≠ k := by
        intro h
        subst h
        exact hnd.1 (List.mem_map.mpr ⟨(k0, v), h1, rfl⟩)
      simp only [lookupKV, if_neg hk]
      exact ih hnd.2 h1

theorem mem_of_lookupKV (m : List (Nat × Nat)) (k v : Nat)
    (hv : lookupKV m k = some v) : (k, v) ∈ m := by
  induction m with
  | nil => cases hv
  | cons p rest ih =>
    obtain ⟨k0, v0⟩ := p
    by_cases hk : k0 = k
    · subst hk
      simp only [lookupKV, if_pos rfl] at hv
      exact List.mem_cons.mpr (Or.inl (by rw [Option.some.inj hv]))
    · simp only [lookupKV, if_neg hk] at hv
      exact List.mem_cons.mpr (Or.inr (ih hv))

theorem mem_insertKV (l : List (Nat × Nat)) (k v : Nat) :
    ∀ q ∈ insertKV l k v, q = (k, v) ∨ q ∈ l := by
  induction l with
  | nil => intro q hq; simpa [insertKV] using hq
  | cons p rest ih =>
    intro q hq
    obtain ⟨k0, v0⟩ := p
    by_cases hk : k0 = k
    · simp only [insertKV, if_pos hk] at hq
      rcases List.mem_cons.mp hq with h1 | h1
      · exact Or.inl h1
      · exact Or.inr (List.mem_cons_of_mem _ h1)
    · simp only [insertKV, if_neg hk] at hq
      rcases List.mem_cons.mp hq with h1 | h1
      · exact Or.inr (List.mem_cons.mpr (Or.inl h1))
      · rcases ih q h1 with h2 | h2
        · exact Or.inl h2
        · exact Or.inr (List.mem_cons_of_mem _ h2)

theorem mem_foldl_insertKV (m : List (Nat × Nat)) :
    ∀ (init : List (Nat × Nat)) (q : Nat × Nat),
      q ∈ m.foldl (fun acc p => insertKV acc p.1 p.2) init →
      q ∈ init ∨ q ∈ m := by
  induction m with
  | nil => intro init q hq; exact Or.inl hq
  | cons p rest ih =>
    intro init q hq
    simp only [List.foldl_cons] at hq
    rcases ih _ q hq with h1 | h1
    · rcases mem_insertKV init p.1 p.2 q h1 with h2 | h2
      · exact Or.inr (List.mem_cons.mpr (Or.inl (by rw [h2])))
      · exact Or.inl h2
    · exact Or.inr (List.mem_cons_of_mem _ h1)

/-- C9: a successful root call of `set_hold_shares` replaces the whole
schedule: afterwards every key reads exactly as in the supplied map, the
stored pairs are exactly the supplied pairs, and the previous contents are
gone. -/
theorem set_hold_shares_replaces (m : List (Nat × Nat)) (st : Storage)
    (hnd : (m.map Prod.fst).Nodup) :
    (∀ k, lookupKV ((setHoldShares Origin.root m st).1).coinBlockShares k =
        lookupKV m k) ∧
      (∀ q, q ∈ ((setHoldShares Origin.root m st).1).coinBlockShares ↔ q ∈ m) ∧
      (setHoldShares Origin.root m st).2 = Except.ok () := by
  refine ⟨?_, ?_, rfl⟩
  · intro k
    show lookupKV (m.foldl (fun acc p => insertKV acc p.1 p.2) []) k = lookupKV m k
    cases hv : lookupKV m k with
    | none =>
      rw [lookupKV_foldl_not_mem m [] k ((lookupKV_none_iff m k).mp hv)]
      rfl
    | some v => exact lookupKV_foldl_mem m [] k v hnd hv
  · intro q
    constructor
    · intro hq
      rcases mem_foldl_insertKV m [] q hq with h1 | h1
      · cases h1
      · exact h1
    · intro hq
      have hv : lookupKV m q.1 = some q.2 := lookupKV_of_mem m q.1 q.2 hnd hq
      exact mem_of_lookupKV _ q.1 q.2 (lookupKV_foldl_mem m [] q.1 q.2 hnd hv)

/-- Witness for C9: replacing a non-empty schedule with a fresh map. -/
theorem set_hold_shares_replaces_witness :
    (∀ k, lookupKV ((setHoldShares Origin.root [(4, 1), (2, 3)]
          ⟨[(7, 7)], []⟩).1).coinBlockShares k = lookupKV [(4, 1), (2, 3)] k) ∧
      (∀ q, q ∈ ((setHoldShares Origin.root [(4, 1), (2, 3)]
          ⟨[(7, 7)], []⟩).1).coinBlockShares ↔ q ∈ [(4, 1), (2, 3)]) ∧
      (setHoldShares Origin.root [(4, 1), (2, 3)] ⟨[(7, 7)], []⟩).2 =
        Except.ok () :=
  set_hold_shares_replaces [(4, 1), (2, 3)] ⟨[(7, 7)], []⟩ (by decide)

/-! ## The zero-score cycle (C2) -/

/-- C2 (behavior of the code at the failing inputs): at minting block 5, with
one registry account and an empty schedule every score is zero, and the
deposit loop divides `amount * shares` by `total_shares = 0` — a Rust panic,
modelled as `none` — after `take_from` has already been invoked; with an empty
registry no division runs, but the pool is still withdrawn and zeroed with
nothing distributed.  Both outcomes contradict a clean skip that leaves the
pool untouched. -/
theorem zero_total_score_bug :
    onFinalize ⟨5, [1], fun _ => 0, 100⟩ ⟨[], []⟩ 5 = none ∧
      onFinalize ⟨5, [], fun _ => 0, 100⟩ ⟨[], []⟩ 5 =
        some { blockBalances := [], poolWithdrawn := true, poolRemaining := 0,
               deposits := [] } :=
  ⟨rfl, rfl⟩

/-! ## Unchecked arithmetic (C5) -/

/-- The reward computation `amount * shares / total_shares` (line 139) under
`u128` semantics: the source uses plain `*` with no checked or widened
arithmetic, so the product wraps modulo `2 ^ 128`. -/
def rewardU128 (amount shares total : Nat) : Nat :=
  wrap128 (amount * shares) / total

/-- C5 (behavior of the code at the failing input): with
`pool_amount = 2 ^ 127` and a single account of score 4 (so
`total_shares = 4`), the unchecked multiplication wraps to zero and the
account is silently credited 0 instead of the exact `2 ^ 127`; no error is
detected or surfaced. -/
theorem reward_mul_overflow_wraps :
    rewardU128 (2 ^ 127) 4 4 = 0 ∧ 2 ^ 127 * 4 / 4 = 2 ^ 127 ∧
      (0 : Nat) ≠ 2 ^ 127 := by
  refine ⟨?_, by norm_num, by norm_num⟩
  show (2 ^ 127 * 4) % 2 ^ 128 / 4 = 0
  norm_num

/-! ## The running-minimum law (C6) -/

/-- C6: with offsets `0`, `N` and `2 * N` all configured (positive shares) and
recorded balances 100 at offset 0, 50 at offset `N` and 100 at offset `2 * N`,
the contribution attributed to offset `2 * N` uses the running minimum 50, not
the recorded 100: the balance drop at offset `N` caps every older
checkpoint. -/
theorem running_min_caps_older (hist : List ((Nat × Nat) × Nat))
    (B N a s0 s1 s2 : Nat) (hN : 0 < N) (hB : 2 * N ≤ B)
    (h0 : getBB hist B a = 100) (h1 : getBB hist (B - N) a = 50)
    (h2 : getBB hist (B - 2 * N) a = 100)
    (hs0 : 0 < s0) (hs1 : 0 < s1) (hs2 : 0 < s2) :
    contribs hist B a [(0, s0), (N, s1), (2 * N, s2)] balanceMax =
      [100 * s0, 50 * s1, 50 * s2] ∧ 50 * s2 < 100 * s2 := by
  constructor
  · have hNB : N ≤ B := by omega
    have hmax : min (100 : Nat) balanceMax = 100 := by
      unfold balanceMax
      exact Nat.min_eq_left (by norm_num)
    have hm2 : min (50 : Nat) 100 = 50 := by norm_num
    have hm3 : min (100 : Nat) 50 = 50 := by norm_num
    simp only [contribs, if_pos (Nat.zero_le B), if_pos hNB, if_pos hB,
      Nat.sub_zero, h0, h1, h2, hmax, hm2, hm3]
  · have : (50 : Nat) < 100 := by norm_num
    exact Nat.mul_lt_mul_of_lt_of_le this (Nat.le_refl s2) hs2

/-- Witness for C6 with `N = 2`, block 4 and unit shares. -/
theorem running_min_caps_older_witness :
    contribs [((4, 7), 100), ((2, 7), 50), ((0, 7), 100)] 4 7
        [(0, 1), (2, 1), (2 * 2, 1)] balanceMax =
      [100 * 1, 50 * 1, 50 * 1] ∧ 50 * 1 < 100 * 1 :=
  running_min_caps_older [((4, 7), 100), ((2, 7), 50), ((0, 7), 100)] 4 2 7 1 1 1
    (by decide) (by decide) (by decide) (by decide) (by decide)
    (by decide) (by decide) (by decide)

/-! ## The minting-block distribution (C3, C10) -/

theorem distributeLoop_pos (amount total : Nat) (htot : total ≠ 0) :
    ∀ l : List (Nat × Nat),
      distributeLoop amount total l =
        some (l.map fun p => (p.1, wrap128 (amount * p.2) / total)) := by
  intro l
  induction l with
  | nil => rfl
  | cons p rest ih =>
    obtain ⟨a, s⟩ := p
    simp [distributeLoop, htot, ih]

/-- `on_finalize` at a minting block with positive total score: the pool is
withdrawn (and zeroed) and each account gets
`amount * score / total_shares` in wrapping `u128` arithmetic. -/
theorem onFinalize_minting (ext : Externals) (st : Storage) (B : Nat)
    (hmint : B % ext.mintEveryNBlocks = 0)
    (htot : totalScore ext st B ≠ 0) :
    onFinalize ext st B =
      some { blockBalances := recordBalances ext st B, poolWithdrawn := true,
             poolRemaining := 0,
             deposits := (distScores ext st B).map fun p =>
               (p.1, wrap128 (ext.pool * p.2) / totalScore ext st B) } := by
  unfold onFinalize
  rw [distributeLoop_pos ext.pool (totalScore ext st B) htot (distScores ext st B),
    if_pos (show isMintingBlock ext.mintEveryNBlocks B = true by
      simp [isMintingBlock, hmint])]

theorem div_add_div_le (x y T : Nat) (hT : 0 < T) :
    x / T + y / T ≤ (x + y) / T := by
  rw [Nat.le_div_iff_mul_le hT, Nat.add_mul]
  exact Nat.add_le_add (Nat.div_mul_le_self x T) (Nat.div_mul_le_self y T)

theorem sum_map_div_le (p T : Nat) (hT : 0 < T) :
    ∀ l : List Nat, ((l.map fun s => p * s / T).sum) ≤ p * l.sum / T := by
  intro l
  induction l with
  | nil => simp
  | cons s rest ih =>
    simp only [List.map_cons, List.sum_cons]
    calc p * s / T + ((rest.map fun s => p * s / T).sum)
        ≤ p * s / T + p * rest.sum / T := Nat.add_le_add_left ih _
      _ ≤ (p * s + p * rest.sum) / T := div_add_div_le _ _ T hT
      _ = p * (s + rest.sum) / T := by rw [Nat.mul_add]

/-- C10: at a minting block with positive total score the deposits sum to at
most the withdrawn pool amount — floor division never over-distributes, the
rounding remainder is simply not handed out. -/
theorem distributed_total_le_pool (ext : Externals) (st : Storage) (B : Nat)
    (hmint : B % ext.mintEveryNBlocks = 0)
    (htot : totalScore ext st B ≠ 0) (r : FinalizeResult)
    (hr : onFinalize ext st B = some r) :
    (r.deposits.map Prod.snd).sum ≤ ext.pool := by
  rw [onFinalize_minting ext st B hmint htot] at hr
  obtain rfl := (Option.some.inj hr).symm
  have h1 := sum_map_div_le ext.pool (totalScore ext st B)
    (Nat.pos_of_ne_zero htot) ((distScores ext st B).map Prod.snd)
  have h2 : ext.pool * ((distScores ext st B).map Prod.snd).sum /
      totalScore ext st B = ext.pool := by
    show ext.pool * totalScore ext st B / totalScore ext st B = ext.pool
    exact Nat.mul_div_cancel ext.pool (Nat.pos_of_ne_zero htot)
  rw [h2] at h1
  calc (((distScores ext st B).map fun p =>
          (p.1, wrap128 (ext.pool * p.2) / totalScore ext st B)).map Prod.snd).sum
      = ((distScores ext st B).map fun p =>
          wrap128 (ext.pool * p.2) / totalScore ext st B).sum := by
        simp only [List.map_map]
        rfl
    _ ≤ ((distScores ext st B).map fun p =>
          ext.pool * p.2 / totalScore ext st B).sum :=
        List.sum_le_sum fun p _ => Nat.div_le_div_right (Nat.mod_le _ _)
    _ = (((distScores ext st B).map Prod.snd).map fun s =>
          ext.pool * s / totalScore ext st B).sum := by
        simp only [List.map_map]
        rfl
    _ ≤ ext.pool := h1

/-- Witness for C10: one account, score 14, pool 50, distributed sum 50. -/
theorem distributed_total_le_pool_witness :
    ((FinalizeResult.deposits
          { blockBalances := [((3, 4), 7)], poolWithdrawn := true,
            poolRemaining := 0, deposits := [(4, 50)] }).map Prod.snd).sum ≤ 50 :=
  distributed_total_le_pool ⟨3, [4], fun _ => 7, 50⟩ ⟨[(0, 2)], []⟩ 3
    (by decide) (by decide)
    { blockBalances := [((3, 4), 7)], poolWithdrawn := true, poolRemaining := 0,
      deposits := [(4, 50)] } (by decide)

end HolderRewards
